import Mathlib

/-!
Verification of the derive layer of `phobos/blender/io/blender2phobos.py`.

Python strings are modelled as lists of characters (`Key`), Python floats as
rationals, Python dicts as insertion-ordered association lists, and raising
Python code as `Except PyError` values.  Host (Blender / mathutils) data that
the derive functions merely read is modelled as explicit record fields; the
host method `mathutils.Matrix.normalized()` is passed in as an explicit
function parameter `normalize` because its implementation lives in the host,
not in this repository.
-/

namespace Phobos

/-- Python strings are modelled as lists of characters. -/
abbrev Key := List Char

/-- Build a `Key` from a string literal. -/
def kStr (s : String) : Key := s.toList

/-- Errors a derive function can raise (Python exception classes). -/
inductive PyError where
  | keyError
  | typeError
  | valueError
  | indexError
  | assertionError
deriving DecidableEq

/-- Auxiliary scanner for `splitFirst`: `acc` holds the (reversed) characters
seen before the first separator. -/
def splitFirstAux (acc : Key) : Key → Option (Key × Key)
  | [] => none
  | c :: rest => if c = '/' then some (acc.reverse, rest) else splitFirstAux (c :: acc) rest

/-- Models Python `k.split("/", 1)`: `none` when `"/" not in k`, otherwise the
part before the first `'/'` and the remainder after it. -/
def splitFirst (k : Key) : Option (Key × Key) := splitFirstAux [] k

/-- A Blender custom-property value (ID properties: numbers, strings and
arrays; nested property groups do not occur on the objects modelled here). -/
inductive PVal where
  | num (q : ℚ)
  | str (s : Key)
  | arr (xs : List PVal)

mutual

/-- Decidable equality for property values. -/
def PVal.decEq : (a b : PVal) → Decidable (a = b)
  | .num a, .num b =>
    if h : a = b then .isTrue (by rw [h]) else .isFalse (fun hh => by cases hh; exact h rfl)
  | .num _, .str _ => .isFalse nofun
  | .num _, .arr _ => .isFalse nofun
  | .str _, .num _ => .isFalse nofun
  | .str a, .str b =>
    if h : a = b then .isTrue (by rw [h]) else .isFalse (fun hh => by cases hh; exact h rfl)
  | .str _, .arr _ => .isFalse nofun
  | .arr _, .num _ => .isFalse nofun
  | .arr _, .str _ => .isFalse nofun
  | .arr xs, .arr ys =>
    match PVal.decEqList xs ys with
    | .isTrue h => .isTrue (by rw [h])
    | .isFalse h => .isFalse (fun hh => by cases hh; exact h rfl)

/-- Decidable equality for lists of property values. -/
def PVal.decEqList : (xs ys : List PVal) → Decidable (xs = ys)
  | [], [] => .isTrue rfl
  | [], _ :: _ => .isFalse nofun
  | _ :: _, [] => .isFalse nofun
  | x :: xs, y :: ys =>
    match PVal.decEq x y, PVal.decEqList xs ys with
    | .isTrue h1, .isTrue h2 => .isTrue (by rw [h1, h2])
    | .isFalse h1, _ => .isFalse (fun hh => by injection hh with hA hB; exact h1 hA)
    | _, .isFalse h2 => .isFalse (fun hh => by injection hh with hA hB; exact h2 hB)

end

instance : DecidableEq PVal := PVal.decEq

instance {ε α : Type} [DecidableEq ε] [DecidableEq α] : DecidableEq (Except ε α) :=
  fun a b =>
    match a, b with
    | .ok x, .ok y =>
      if h : x = y then .isTrue (by rw [h]) else .isFalse (fun hh => by cases hh; exact h rfl)
    | .error x, .error y =>
      if h : x = y then .isTrue (by rw [h]) else .isFalse (fun hh => by cases hh; exact h rfl)
    | .ok _, .error _ => .isFalse nofun
    | .error _, .ok _ => .isFalse nofun

/-- Value stored in a grouped annotation dictionary: either a plain property
value or a one-level nested dictionary. -/
inductive AnnVal where
  | plain (v : PVal)
  | nested (m : List (Key × PVal))
deriving DecidableEq

/-- Python `d[k]` lookup on an insertion-ordered dict modelled as an
association list (`none` when the key is absent). -/
def dictGet {α : Type} : List (Key × α) → Key → Option α
  | [], _ => none
  | (k', v) :: d, k => if k' = k then some v else dictGet d k

/-- Python `d[k] = v` on an insertion-ordered dict: an existing key keeps its
position and gets the new value, a fresh key is appended at the end. -/
def dictSet {α : Type} : List (Key × α) → Key → α → List (Key × α)
  | [], k, v => [(k, v)]
  | (k', v') :: d, k, v => if k' = k then (k', v) :: d else (k', v') :: dictSet d k v

/-- Models Python `k.startswith(pat)`. -/
def keyStartsWith : Key → Key → Bool
  | _, [] => true
  | [], _ :: _ => false
  | c :: k, p :: ps => c = p && keyStartsWith k ps

/-- Models Python `k.replace(pat, "")` (removal of every non-overlapping
occurrence of `pat`, scanning left to right); only used with non-empty `pat`
(`"link/"` and `"joint/"` in the source). -/
def removeSub (pat : Key) : Key → Key
  | [] => []
  | c :: rest =>
    if pat ≠ [] ∧ keyStartsWith (c :: rest) pat then
      removeSub pat ((c :: rest).drop pat.length)
    else
      c :: removeSub pat rest
termination_by k => k.length
decreasing_by
  · have hp : 0 < pat.length := List.length_pos.mpr (by tauto)
    simp only [List.length_drop, List.length_cons]
    omega
  · simp

/-! ### Rigid transforms

`representation.Pose` and `mathutils.Matrix` are host/collaborator code that
is not part of this excerpt; they are modelled from the spec (§3, §4.1): a
pose is a rigid transform (rotation matrix, position), with composition
`dot`, inversion `inv` (valid for orthonormal rotations), an identity default
constructor, and extraction `from_matrix` from a homogeneous matrix. -/

/-- A 3-vector of rationals. -/
structure Vec3 where
  x : ℚ
  y : ℚ
  z : ℚ
deriving DecidableEq

def Vec3.zero : Vec3 := ⟨0, 0, 0⟩

def Vec3.add (a b : Vec3) : Vec3 := ⟨a.x + b.x, a.y + b.y, a.z + b.z⟩

def Vec3.sub (a b : Vec3) : Vec3 := ⟨a.x - b.x, a.y - b.y, a.z - b.z⟩

def Vec3.neg (a : Vec3) : Vec3 := ⟨-a.x, -a.y, -a.z⟩

def Vec3.smul (c : ℚ) (a : Vec3) : Vec3 := ⟨c * a.x, c * a.y, c * a.z⟩

/-- Euclidean inner product. -/
def Vec3.dotv (a b : Vec3) : ℚ := a.x * b.x + a.y * b.y + a.z * b.z

/-- A 3×3 matrix of rationals, row major. -/
structure Mat3 where
  m00 : ℚ
  m01 : ℚ
  m02 : ℚ
  m10 : ℚ
  m11 : ℚ
  m12 : ℚ
  m20 : ℚ
  m21 : ℚ
  m22 : ℚ
deriving DecidableEq

def Mat3.id : Mat3 := ⟨1, 0, 0, 0, 1, 0, 0, 0, 1⟩

def Mat3.mul (A B : Mat3) : Mat3 :=
  ⟨A.m00 * B.m00 + A.m01 * B.m10 + A.m02 * B.m20,
   A.m00 * B.m01 + A.m01 * B.m11 + A.m02 * B.m21,
   A.m00 * B.m02 + A.m01 * B.m12 + A.m02 * B.m22,
   A.m10 * B.m00 + A.m11 * B.m10 + A.m12 * B.m20,
   A.m10 * B.m01 + A.m11 * B.m11 + A.m12 * B.m21,
   A.m10 * B.m02 + A.m11 * B.m12 + A.m12 * B.m22,
   A.m20 * B.m00 + A.m21 * B.m10 + A.m22 * B.m20,
   A.m20 * B.m01 + A.m21 * B.m11 + A.m22 * B.m21,
   A.m20 * B.m02 + A.m21 * B.m12 + A.m22 * B.m22⟩

def Mat3.transpose (A : Mat3) : Mat3 :=
  ⟨A.m00, A.m10, A.m20, A.m01, A.m11, A.m21, A.m02, A.m12, A.m22⟩

def Mat3.mulVec (A : Mat3) (v : Vec3) : Vec3 :=
  ⟨A.m00 * v.x + A.m01 * v.y + A.m02 * v.z,
   A.m10 * v.x + A.m11 * v.y + A.m12 * v.z,
   A.m20 * v.x + A.m21 * v.y + A.m22 * v.z⟩

def Mat3.add (A B : Mat3) : Mat3 :=
  ⟨A.m00 + B.m00, A.m01 + B.m01, A.m02 + B.m02,
   A.m10 + B.m10, A.m11 + B.m11, A.m12 + B.m12,
   A.m20 + B.m20, A.m21 + B.m21, A.m22 + B.m22⟩

def Mat3.smul (c : ℚ) (A : Mat3) : Mat3 :=
  ⟨c * A.m00, c * A.m01, c * A.m02,
   c * A.m10, c * A.m11, c * A.m12,
   c * A.m20, c * A.m21, c * A.m22⟩

/-- Outer product `a ⊗ b`. -/
def Mat3.outer (a b : Vec3) : Mat3 :=
  ⟨a.x * b.x, a.x * b.y, a.x * b.z,
   a.y * b.x, a.y * b.y, a.y * b.z,
   a.z * b.x, a.z * b.y, a.z * b.z⟩

/-- A homogeneous 4×4 world matrix (`mathutils.Matrix`), modelled as its
rotation block and translation column; the bottom row `0 0 0 1` is implicit. -/
structure HMat where
  rot : Mat3
  pos : Vec3
deriving DecidableEq

/-- Modelled from the spec: `representation.Pose`, a rigid transform with a
rotation and a position part (spec §3, "Pose"). -/
structure Pose where
  rotation : Mat3
  position : Vec3
deriving DecidableEq

/-- Modelled from the spec: the default constructor `representation.Pose()`
is the identity transform (spec §4.1: "the parent transform is the
identity"). -/
def Pose.identity : Pose := ⟨Mat3.id, Vec3.zero⟩

/-- Modelled from the spec: `representation.Pose.from_matrix` extracts the
rotation block and translation of a homogeneous matrix. -/
def Pose.from_matrix (M : HMat) : Pose := ⟨M.rot, M.pos⟩

/-- Modelled from the spec: pose composition `P.dot(Q)` of rigid transforms
(spec §3: "Supports composition (`dot`)"). -/
def Pose.dot (P Q : Pose) : Pose :=
  ⟨P.rotation.mul Q.rotation, (P.rotation.mulVec Q.position).add P.position⟩

/-- Modelled from the spec: pose inversion `P.inv()`; for a rotation in SO(3)
(the spec's Pose invariant) the inverse rotation is the transpose. -/
def Pose.inv (P : Pose) : Pose :=
  ⟨P.rotation.transpose, (P.rotation.transpose.mulVec P.position).neg⟩

/-! ### Blender objects as seen by the derive layer -/

/-- The result of `sUtils.getEffectiveParent` as consumed by the derive
functions: the parent's name and world matrix. -/
structure EParent where
  name : Key
  matrix_world : HMat
deriving DecidableEq

/-- A child object of a link as consumed by the derive layer: motor children
contribute their name, inertial children contribute an inertial contribution
(mass, inertia tensor, origin pose in the link frame, spec §6). -/
structure ChildObj where
  name : Key
  phobostype : Key
  mass : ℚ
  inertia : Mat3
  origin : Pose
deriving DecidableEq

/-- A Blender object as consumed by the derive layer: name, phobostype, world
matrix, the (pre-resolved) result of `sUtils.getEffectiveParent`, the custom
ID-property bag, and the object's children. -/
structure BObj where
  name : Key
  phobostype : Key
  matrix_world : HMat
  effectiveParent : Option EParent
  props : List (Key × PVal)
  children : List ChildObj
deriving DecidableEq

/-- The `if effectiveparent is None: effectiveparent = getEffectiveParent(obj)`
resolution at the top of `deriveObjectPose`. -/
def resolvedParent (obj : BObj) (effectiveparent : Option EParent) : Option EParent :=
  match effectiveparent with
  | none => obj.effectiveParent
  | some p => some p

/-- `deriveObjectPose` (blender2phobos.py lines 26-43).  `normalize` models
the host method `mathutils.Matrix.normalized()` applied to the world
matrices. -/
def deriveObjectPose (normalize : HMat → HMat) (obj : BObj)
    (effectiveparent : Option EParent) : Pose :=
  let ep := resolvedParent obj effectiveparent
  let w2p : Pose :=
    match ep with
    | some p => Pose.from_matrix (normalize p.matrix_world)
    | none => Pose.identity
  let w2o := Pose.from_matrix (normalize obj.matrix_world)
  (w2p.inv).dot w2o

/-- Modelled from the spec: the Pose Composer contract of spec §4.1,
`local = inverse(parentWorld) ∘ childWorld` after normalizing both world
transforms. -/
def composeLocalPose (normalize : HMat → HMat) (childWorld parentWorld : HMat) : Pose :=
  ((Pose.from_matrix (normalize parentWorld)).inv).dot
    (Pose.from_matrix (normalize childWorld))

/-- Concrete host matrix used by witnesses: rotation swapping x/y with a
translation. -/
def sampleHMat : HMat := ⟨⟨0, 1, 0, 1, 0, 0, 0, 0, 1⟩, ⟨2, 3, 5⟩⟩

/-- Concrete parent used by witnesses. -/
def sampleParent : EParent := ⟨kStr "base", ⟨Mat3.id, ⟨1, 0, 0⟩⟩⟩

/-- Concrete object with an effective parent, used by witnesses. -/
def sampleChildObj : BObj :=
  ⟨kStr "child", kStr "visual", sampleHMat, some sampleParent, [], []⟩

/-- Concrete object without an effective parent, used by witnesses. -/
def sampleRootObj : BObj :=
  ⟨kStr "root", kStr "link", sampleHMat, none, [], []⟩

/-! ### Collision bitmask (deriveCollision, lines 121-133) -/

/-- Models Python `int(s, 2)` on a string of binary digits, most significant
digit first; `int("", 2)` raises `ValueError`, modelled as `none`. -/
def intParseBase2 (s : List Char) : Option ℕ :=
  if s = [] then none
  else some (s.foldl (fun a c => 2 * a + (if c = '1' then 1 else 0)) 0)

/-- The bitmask computed by `deriveCollision`: the first 16 collision groups
joined as a '1'/'0' string, reversed, and parsed base 2 (lines 124-128). -/
def collisionBitmask (cc : List Bool) : Option ℕ :=
  intParseBase2 (((cc.take 16).map (fun group => if group then '1' else '0')).reverse)

/-- Concrete collision layer vector (Blender always supplies 20 groups),
used by witnesses. -/
def sampleCollections : List Bool := List.replicate 20 true

/-! ### deepen_dict (deriveAnnotation, lines 491-498) -/

/-- A value inside an annotation dictionary processed by `deepen_dict`
(plain values and nested dictionaries produced by the recursion). -/
inductive DVal where
  | atom (q : ℚ)
  | dict (xs : List (Key × DVal))

/-- Termination measure for `deepen_dictAux`: the recursive call processes a
singleton dict whose key is the strictly shorter remainder after the first
separator. -/
def keyWeight (xs : List (Key × DVal)) : ℕ := (xs.map (fun kv => kv.1.length + 1)).sum

/-- `deepen_dict` of `deriveAnnotation` (lines 491-498), with the loop's
`out` dict as accumulator: a key with a separator stores a FRESH nested dict
built from the singleton `{remainder: value}` under the part before the first
separator; a key without separator is stored as is. -/
def deepen_dictAux (out : List (Key × DVal)) : List (Key × DVal) → List (Key × DVal)
  | [] => out
  | (k, v) :: rest =>
    match hsp : splitFirst k with
    | some (k1, k2) =>
        deepen_dictAux (dictSet out k1 (.dict (deepen_dictAux [] [(k2, v)]))) rest
    | none => deepen_dictAux (dictSet out k v) rest
termination_by xs => keyWeight xs
decreasing_by
  · have aux : ∀ (l acc a b : Key), splitFirstAux acc l = some (a, b) → b.length < l.length := by
      intro l
      induction l with
      | nil => intro acc a b h; simp [splitFirstAux] at h
      | cons c rest ih =>
        intro acc a b h
        rw [splitFirstAux] at h
        split at h
        · simp only [Option.some.injEq, Prod.mk.injEq] at h
          obtain ⟨-, h2⟩ := h
          subst h2
          simp
        · have := ih _ _ _ h
          simp only [List.length_cons]
          omega
    have hk2 : k2.length < k.length := aux k [] k1 k2 hsp
    simp only [keyWeight, List.map_cons, List.map_nil, List.sum_cons, List.sum_nil]
    omega
  · simp only [keyWeight, List.map_cons, List.sum_cons]
    omega
  · simp only [keyWeight, List.map_cons, List.sum_cons]
    omega

/-- `deepen_dict` of `deriveAnnotation` (lines 491-498). -/
def deepen_dict (input_dict : List (Key × DVal)) : List (Key × DVal) :=
  deepen_dictAux [] input_dict

/-- Concrete annotation bag with two keys sharing the head prefix `p`. -/
def sharedHeadProps : List (Key × DVal) :=
  [(['p', '/', 'a'], .atom 1), (['p', '/', 'b'], .atom 2)]

/-! ### One-level annotation grouping

The same loop body appears in deriveCollision (142-151), deriveVisual
(189-198), deriveInertial (217-226), deriveInterface (465-474) and — with a
reserved-key filter and a namespace rename in front — deriveJoint (417-427)
and deriveLink (386-397). -/

/-- The grouping step for one surviving key: a key without separator is
stored at top level; a key with a separator is stored in the nested dict
under the part before the first separator (`if k1 not in annotations:
annotations[k1] = {}` followed by `annotations[k1][k2] = v`); when the slot
already holds a plain (non-dict) value the item assignment raises
`TypeError`. -/
def groupStep (ann : List (Key × AnnVal)) (k : Key) (v : PVal) :
    Except PyError (List (Key × AnnVal)) :=
  match splitFirst k with
  | none => .ok (dictSet ann k (.plain v))
  | some (k1, k2) =>
    match dictGet ann k1 with
    | none => .ok (dictSet ann k1 (.nested [(k2, v)]))
    | some (.nested m) => .ok (dictSet ann k1 (.nested (dictSet m k2 v)))
    | some (.plain _) => .error .typeError

/-- The annotation loop with a plain excluded-key filter (deriveCollision,
deriveVisual, deriveInertial, deriveInterface). -/
def groupAux (excluded : List Key) (ann : List (Key × AnnVal)) :
    List (Key × PVal) → Except PyError (List (Key × AnnVal))
  | [] => .ok ann
  | (k, v) :: rest =>
    if k ∈ excluded then groupAux excluded ann rest
    else
      match groupStep ann k v with
      | .ok ann2 => groupAux excluded ann2 rest
      | .error e => .error e

/-- The one-level annotation grouping over a property bag. -/
def groupAnnotations (excluded : List Key) (items : List (Key × PVal)) :
    Except PyError (List (Key × AnnVal)) :=
  groupAux excluded [] items

/-- The keys of a property bag surviving the excluded-key filter. -/
def survivors (excluded : List Key) (items : List (Key × PVal)) : List (Key × PVal) :=
  items.filter (fun kv => decide (¬ kv.1 ∈ excluded))

/-- The keys of a Python dict are pairwise distinct. -/
def KeysNodup (items : List (Key × PVal)) : Prop :=
  (items.map (fun kv => kv.1)).Nodup

/-- The part of a key before its first separator, when it has one. -/
def headKeyOf (k : Key) : Option Key := (splitFirst k).map (fun p => p.1)

/-- No separator-free key of the bag is also the head prefix of a key with a
separator (the situation in which the grouping loop overwrites or raises). -/
def NoCollision (l : List (Key × PVal)) : Prop :=
  ∀ p ∈ l, ∀ q ∈ l, splitFirst p.1 = none → headKeyOf q.1 ≠ some p.1

instance (items : List (Key × PVal)) : Decidable (KeysNodup items) := by
  unfold KeysNodup
  infer_instance

instance (l : List (Key × PVal)) : Decidable (NoCollision l) := by
  unfold NoCollision
  infer_instance

/-- The slot `k` of a grouped dict holds a plain (non-dict) value. -/
def isPlainSlot (d : List (Key × AnnVal)) (k : Key) : Prop :=
  ∃ v, dictGet d k = some (.plain v)

/-- The annotation loop of deriveJoint (417-427) and deriveLink (386-397):
keys in the reserved sets (`reserved_keys` is outside this excerpt, passed as
the parameter `reserved`) or starting with the other entity's namespace
`banNS` are skipped; the own namespace `strip` is removed from the key
before the common grouping step. -/
def groupAuxNS (reserved : List Key) (banNS strip : Key) (ann : List (Key × AnnVal)) :
    List (Key × PVal) → Except PyError (List (Key × AnnVal))
  | [] => .ok ann
  | (k, v) :: rest =>
    if k ∉ reserved ∧ keyStartsWith k banNS = false then
      match groupStep ann (removeSub strip k) v with
      | .ok ann2 => groupAuxNS reserved banNS strip ann2 rest
      | .error e => .error e
    else groupAuxNS reserved banNS strip ann rest

/-! ### deriveJoint (lines 410-460) -/

/-- Joint limits record (all four entries read with `obj.get(…, None)`). -/
structure JointLimit where
  effort : Option PVal
  velocity : Option PVal
  lower : Option PVal
  upper : Option PVal
deriving DecidableEq

/-- Joint dynamics record (all four entries read with `obj.get(…, None)`). -/
structure JointDynamics where
  damping : Option PVal
  friction : Option PVal
  spring_stiffness : Option PVal
  spring_reference : Option PVal
deriving DecidableEq

/-- Joint mimic record (all three entries are required lookups). -/
structure JointMimic where
  joint : PVal
  multiplier : PVal
  offset : PVal
deriving DecidableEq

/-- The joint record built by `deriveJoint`. -/
structure Joint where
  name : PVal
  parent : Key
  child : Key
  joint_type : PVal
  axis : Option PVal
  origin : Pose
  limit : Option JointLimit
  dynamics : Option JointDynamics
  mimic : Option JointMimic
  motor : Option Key
  annotations : List (Key × AnnVal)
deriving DecidableEq

/-- The joint types for which line 439 reads `obj["joint/axis"]`. -/
def axisJointTypes : List PVal :=
  [.str (kStr "revolute"), .str (kStr "prismatic"), .str (kStr "continuous")]

/-- Line 439: `obj["joint/axis"] if obj["joint/type"] in ["revolute",
"prismatic", "continuous"] else None`; the lookup raises `KeyError` when the
type requires an axis and the property is absent. -/
def jointAxisStep (props : List (Key × PVal)) (jt : PVal) : Except PyError (Option PVal) :=
  if jt ∈ axisJointTypes then
    match dictGet props (kStr "joint/axis") with
    | none => .error .keyError
    | some a => .ok (some a)
  else .ok none

/-- Lines 454-458: the mimic record is built only when `joint/mimic/joint`
is present; the multiplier and offset lookups are then required. -/
def jointMimicStep (props : List (Key × PVal)) : Except PyError (Option JointMimic) :=
  if (dictGet props (kStr "joint/mimic/joint")).isSome then
    match dictGet props (kStr "joint/mimic/joint"),
          dictGet props (kStr "joint/mimic/multiplier"),
          dictGet props (kStr "joint/mimic/offset") with
    | some mj, some mm, some mo => .ok (some ⟨mj, mm, mo⟩)
    | _, _, _ => .error .keyError
  else .ok none

/-- `deriveJoint` (lines 410-460).  Returns `ok none` when the object has no
effective parent; raises (models of) `TypeError` from the annotation loop,
`AssertionError` from the motor-count assert, and `KeyError` from the
required lookups `joint/type`, `joint/axis` (axis types only) and the mimic
entries. -/
def deriveJoint (normalize : HMat → HMat) (reserved : List Key) (obj : BObj) :
    Except PyError (Option Joint) :=
  match obj.effectiveParent with
  | none => .ok none
  | some parent =>
    match groupAuxNS reserved (kStr "link/") (kStr "joint/") [] obj.props with
    | .error e => .error e
    | .ok annotations =>
      if (obj.children.filter (fun c => decide (c.phobostype = kStr "motor"))).length ≤ 1 then
        match dictGet obj.props (kStr "joint/type") with
        | none => .error .keyError
        | some jt =>
          match jointAxisStep obj.props jt with
          | .error e => .error e
          | .ok axis =>
            match jointMimicStep obj.props with
            | .error e => .error e
            | .ok mimic =>
              .ok (some ⟨
                (dictGet obj.props (kStr "joint/name")).getD (.str obj.name),
                parent.name,
                obj.name,
                jt,
                axis,
                deriveObjectPose normalize obj none,
                (if (obj.props.map (fun kv => kv.1)).any
                      (fun k => keyStartsWith k (kStr "joint/limits/")) then
                  some ⟨dictGet obj.props (kStr "joint/limits/effort"),
                        dictGet obj.props (kStr "joint/limits/velocity"),
                        dictGet obj.props (kStr "joint/limits/lower"),
                        dictGet obj.props (kStr "joint/limits/upper")⟩
                 else none),
                (if (obj.props.map (fun kv => kv.1)).any
                      (fun k => keyStartsWith k (kStr "joint/dynamics/")) then
                  some ⟨dictGet obj.props (kStr "joint/dynamics/damping"),
                        dictGet obj.props (kStr "joint/dynamics/friction"),
                        dictGet obj.props (kStr "joint/dynamics/spring_stiffness"),
                        dictGet obj.props (kStr "joint/dynamics/spring_reference")⟩
                 else none),
                mimic,
                (if (obj.children.filter (fun c => decide (c.phobostype = kStr "motor"))).length = 1
                 then (obj.children.filter (fun c => decide (c.phobostype = kStr "motor"))).head?
                 else none).map (fun m => m.name),
                annotations⟩)
      else .error .assertionError

/-! ### deriveInertial (lines 209-233) -/

/-- Modelled from the spec: `representation.Inertia`, the six independent
components of a symmetric 3×3 inertia tensor (spec §3). -/
structure Inertia where
  ixx : ℚ
  ixy : ℚ
  ixz : ℚ
  iyy : ℚ
  iyz : ℚ
  izz : ℚ
deriving DecidableEq

/-- Modelled from the spec: `representation.Inertial` — mass, optional
inertia tensor, center-of-mass origin pose, plus passthrough annotations
(spec §3). -/
structure Inertial where
  mass : PVal
  inertia : Option Inertia
  origin : Pose
  annotations : List (Key × AnnVal)
deriving DecidableEq

/-- Modelled from the spec: the `representation.Inertia(*args)` constructor
applied to the unpacked property value; it needs the six tensor components
as numbers. -/
def Inertia.ofArgs : List PVal → Except PyError Inertia
  | [.num a, .num b, .num c, .num d, .num e, .num f] => .ok ⟨a, b, c, d, e, f⟩
  | _ => .error .typeError

/-- The `obj["inertia"]` unpacking of deriveInertial (line 212): use the
first element when it is itself a tuple/list, otherwise the whole array;
`[0]` on an empty array raises `IndexError`, a non-array value is not
unpackable. -/
def parseInertiaProp : PVal → Except PyError Inertia
  | .arr [] => .error .indexError
  | .arr (x :: xs) =>
    match x with
    | .arr ys => Inertia.ofArgs ys
    | _ => Inertia.ofArgs (x :: xs)
  | _ => .error .typeError

/-- `deriveInertial` (lines 209-233): parse the optional `inertia` property,
group the remaining annotations (excluded: `mass`, `inertia`, `origin`), and
build the record with mass defaulting to `0.0`. -/
def deriveInertial (normalize : HMat → HMat) (obj : BObj) : Except PyError Inertial :=
  match
    (match dictGet obj.props (kStr "inertia") with
     | some v => Except.map some (parseInertiaProp v)
     | none => Except.ok none) with
  | .error e => .error e
  | .ok inertia =>
    match groupAux [kStr "mass", kStr "inertia", kStr "origin"] [] obj.props with
    | .error e => .error e
    | .ok annotations =>
      .ok ⟨(dictGet obj.props (kStr "mass")).getD (.num 0), inertia,
           deriveObjectPose normalize obj none, annotations⟩

/-! ### Concrete objects used by witnesses and counterexamples -/

/-- Reserved-key list used by the deriveJoint witness (a subset of the
upstream `JOINT_KEYS`). -/
def sampleJointReserved : List Key := [kStr "joint/type"]

/-- A link object carrying a fixed joint, used by the deriveJoint witness. -/
def sampleJointObj : BObj :=
  ⟨kStr "limb", kStr "link", sampleHMat, some sampleParent,
   [(kStr "joint/type", .str (kStr "fixed"))], []⟩

/-- The joint that `deriveJoint` derives from `sampleJointObj`. -/
def sampleJoint : Joint :=
  ⟨.str (kStr "limb"), kStr "base", kStr "limb", .str (kStr "fixed"), none,
   deriveObjectPose id sampleJointObj none, none, none, none, none, []⟩

/-- A property bag where a plain key collides with the head of a slashed
key: the annotation grouping raises `TypeError` on it. -/
def collidingProps : List (Key × PVal) := [(kStr "a", .num 1), (kStr "a/b", .num 2)]

/-- Excluded-key set used by the grouping witness. -/
def ex1 : List Key := [kStr "x"]

/-- Collision-free property bag used by the grouping witness. -/
def items1 : List (Key × PVal) :=
  [(kStr "x", .num 9), (kStr "a", .num 1), (kStr "p/b", .num 2), (kStr "p/c", .num 3)]

/-- An inertial object with colliding annotation keys and neither `mass` nor
`inertia` properties. -/
def badInertialObj : BObj := ⟨kStr "bad", kStr "inertial", sampleHMat, none, collidingProps, []⟩

/-- An inertial object with a well-behaved property bag and neither `mass`
nor `inertia` properties. -/
def plainInertialObj : BObj :=
  ⟨kStr "i1", kStr "inertial", sampleHMat, none, [(kStr "note", .str (kStr "x"))], []⟩

/-! ### Inertia fusion and deriveLink (lines 332-407)

`phobos.blender.model.inertia` (`fuse_inertia_data`,
`inertiaMatrixToList`) is not part of this excerpt; the fusion is modelled
from the spec (§4.2). -/

def Mat3.zero : Mat3 := ⟨0, 0, 0, 0, 0, 0, 0, 0, 0⟩

def Mat3.sub (A B : Mat3) : Mat3 :=
  ⟨A.m00 - B.m00, A.m01 - B.m01, A.m02 - B.m02,
   A.m10 - B.m10, A.m11 - B.m11, A.m12 - B.m12,
   A.m20 - B.m20, A.m21 - B.m21, A.m22 - B.m22⟩

/-- Modelled from the spec: the parallel-axis correction term
`m * (|d|^2 * I_3 - d ⊗ d)` (spec §4.2 step 3b). -/
def parallelAxisTerm (m : ℚ) (d : Vec3) : Mat3 :=
  Mat3.smul m ((Mat3.smul (Vec3.dotv d d) Mat3.id).sub (Mat3.outer d d))

/-- Modelled from the spec: tensor symmetrization, averaging with the
transpose (spec §4.2 step 4). -/
def symmetrized (A : Mat3) : Mat3 := Mat3.smul (1 / 2) (A.add A.transpose)

/-- Modelled from the spec: `inertiamodel.fuse_inertia_data` (spec §4.2) on
the inertial contributions (mass, inertia tensor, origin pose in the link
frame, spec §6).  Zero total mass yields the absent result instead of
dividing; otherwise: total mass, mass-weighted center of mass, and the sum
of the rotated contribution tensors plus parallel-axis corrections for the
displacements from each contribution to the composite center of mass,
symmetrized. -/
def fuse_inertia_data (inertials : List ChildObj) : Option (ℚ × Vec3 × Mat3) :=
  if ((inertials.map (fun c => c.mass)).sum : ℚ) = 0 then none
  else
    let M : ℚ := (inertials.map (fun c => c.mass)).sum
    let com : Vec3 := Vec3.smul (1 / M)
      (inertials.foldr (fun c acc => (Vec3.smul c.mass c.origin.position).add acc) Vec3.zero)
    let fused : Mat3 := inertials.foldr (fun c acc =>
      (((c.origin.rotation.mul c.inertia).mul c.origin.rotation.transpose).add
        (parallelAxisTerm c.mass (com.sub c.origin.position))).add acc) Mat3.zero
    some (M, com, symmetrized fused)

/-- Modelled from the spec: `inertiamodel.inertiaMatrixToList` — the six
independent components (upper triangle) of a symmetric tensor. -/
def inertiaMatrixToList (I : Mat3) : List ℚ :=
  [I.m00, I.m01, I.m02, I.m11, I.m12, I.m22]

/-- Modelled from the spec:
`representation.Inertia(*inertiamodel.inertiaMatrixToList(I))`. -/
def Inertia.ofMatrix (I : Mat3) : Inertia := ⟨I.m00, I.m01, I.m02, I.m11, I.m12, I.m22⟩

/-- Modelled from the spec: `representation.Pose(xyz=list(com))` — a pose
with identity rotation at the given position. -/
def Pose.fromXYZ (v : Vec3) : Pose := ⟨Mat3.id, v⟩

/-- Lines 364-384 of `deriveLink`: gather the inertial children, fuse them
(only when there is at least one), and build the link inertial unless the
whole fused triple is falsy.  `fuse_inertia_data` returns a result exactly
when the total mass is nonzero, so `any([mass, com, inertia])` is decided by
`bool(mass)` alone (`any` short-circuits on the first truthy element; the
guard below mirrors `bool(mass)` and its `else` arm is unreachable). -/
def linkInertial (obj : BObj) : Option Inertial :=
  match
    (if (obj.children.filter (fun c => decide (c.phobostype = kStr "inertial"))).length > 0
     then fuse_inertia_data (obj.children.filter (fun c => decide (c.phobostype = kStr "inertial")))
     else none) with
  | none => none
  | some (m, com, I) =>
    if m ≠ 0 then some ⟨.num m, some (Inertia.ofMatrix I), Pose.fromXYZ com, []⟩
    else none

/-- A scene object as consumed by the visual/collision gathering loop of
`deriveLink` (lines 347-359): name, phobostype and resolved effective
parent name. -/
structure ScenePart where
  name : Key
  phobostype : Key
  effectiveParentName : Option Key
deriving DecidableEq

/-- The link record built by `deriveLink`: the visual and collision
sub-objects are recorded by name (their full derivation via
deriveVisual/deriveCollision — geometry, material, pose — is further
host-side glue no claim touches). -/
structure Link where
  name : Key
  visuals : List Key
  collisions : List Key
  inertial : Option Inertial
  annotations : List (Key × AnnVal)
deriving DecidableEq

/-- `deriveLink` (lines 332-407): gather visual/collision parts whose
effective parent is this link, fuse the inertial children via
`linkInertial`, and group the annotations (the initial
`{"approxcollision": []}` dict of line 343 is dead — line 387 rebinds
`annotations` to `{}`).  The loop keeps keys outside
`JOINT_KEYS+LINK_KEYS+INTERNAL_KEYS` (parameter `reserved`) not starting
with `joint/`, and strips `link/` from them. -/
def deriveLink (reserved : List Key) (objectlist : List ScenePart) (obj : BObj) :
    Except PyError Link :=
  match groupAuxNS reserved (kStr "joint/") (kStr "link/") [] obj.props with
  | .error e => .error e
  | .ok annotations =>
    .ok ⟨obj.name,
      (objectlist.filter (fun p => decide (p.phobostype = kStr "visual" ∧
        p.effectiveParentName = some obj.name))).map (fun p => p.name),
      (objectlist.filter (fun p => decide (p.phobostype = kStr "collision" ∧
        p.effectiveParentName = some obj.name))).map (fun p => p.name),
      linkInertial obj,
      annotations⟩

end Phobos

namespace Phobos

/-- C1: with an effective parent, `deriveObjectPose` returns exactly the
spec's composition `inverse(parentWorld) ∘ childWorld` with both world
transforms normalized before inversion and composition. -/
theorem deriveObjectPose_parent_eq_composeLocalPose
    (normalize : HMat → HMat) (obj : BObj) (effectiveparent : Option EParent)
    (p : EParent) (h : resolvedParent obj effectiveparent = some p) :
    deriveObjectPose normalize obj effectiveparent
      = composeLocalPose normalize obj.matrix_world p.matrix_world := by
  unfold deriveObjectPose composeLocalPose
  rw [h]

/-- Witness for C1 at a concrete object whose effective parent is resolved
through `getEffectiveParent` (argument `none`). -/
theorem deriveObjectPose_parent_eq_composeLocalPose_witness :
    resolvedParent sampleChildObj none = some sampleParent ∧
      deriveObjectPose id sampleChildObj none
        = composeLocalPose id sampleChildObj.matrix_world sampleParent.matrix_world :=
  ⟨by decide,
   deriveObjectPose_parent_eq_composeLocalPose id sampleChildObj none sampleParent (by decide)⟩

/-- C2: with no effective parent, the parent transform is the identity pose
and `deriveObjectPose` returns the object's own (normalized) world
transform. -/
theorem deriveObjectPose_no_parent
    (normalize : HMat → HMat) (obj : BObj) (effectiveparent : Option EParent)
    (h : resolvedParent obj effectiveparent = none) :
    deriveObjectPose normalize obj effectiveparent
      = Pose.from_matrix (normalize obj.matrix_world) := by
  unfold deriveObjectPose
  rw [h]
  cases hm : normalize obj.matrix_world with
  | mk rot pos =>
    cases rot
    cases pos
    simp [Pose.identity, Pose.inv, Pose.dot, Pose.from_matrix, Mat3.id, Mat3.transpose,
      Mat3.mul, Mat3.mulVec, Vec3.zero, Vec3.add, Vec3.neg]

/-- Witness for C2 at a concrete parentless object. -/
theorem deriveObjectPose_no_parent_witness :
    resolvedParent sampleRootObj none = none ∧
      deriveObjectPose id sampleRootObj none
        = Pose.from_matrix (id sampleRootObj.matrix_world) :=
  ⟨by decide, deriveObjectPose_no_parent id sampleRootObj none (by decide)⟩

/-- C7: the identity pose is a left and right identity for the pose
composition used by `deriveObjectPose`. -/
theorem pose_identity_laws (P : Pose) :
    Pose.dot Pose.identity P = P ∧ Pose.dot P Pose.identity = P := by
  obtain ⟨R, p⟩ := P
  cases R
  cases p
  constructor <;>
    simp [Pose.dot, Pose.identity, Mat3.id, Mat3.mul, Mat3.mulVec, Vec3.zero, Vec3.add]

/-- The base-2 accumulator fold stays below `(a + 1) * 2 ^ length`. -/
theorem parseFold_lt (s : List Char) : ∀ a : ℕ,
    s.foldl (fun a c => 2 * a + (if c = '1' then 1 else 0)) a < (a + 1) * 2 ^ s.length := by
  induction s with
  | nil => intro a; simp
  | cons c s ih =>
    intro a
    have h := ih (2 * a + (if c = '1' then 1 else 0))
    simp only [List.foldl_cons, List.length_cons]
    calc s.foldl (fun a c => 2 * a + (if c = '1' then 1 else 0))
          (2 * a + (if c = '1' then 1 else 0))
        < (2 * a + (if c = '1' then 1 else 0) + 1) * 2 ^ s.length := h
      _ ≤ (2 * a + 2) * 2 ^ s.length := Nat.mul_le_mul_right _ (by split <;> omega)
      _ = (a + 1) * 2 ^ (s.length + 1) := by rw [pow_succ]; ring

/-- C8: whenever `collision_collections` has at least the 16 groups the code
slices (Blender supplies 20), the parsed bitmask exists, lies in
`[0, 2 ^ 16)`, and depends only on the first 16 groups. -/
theorem collisionBitmask_in_range (cc : List Bool) (h : 16 ≤ cc.length) :
    ∃ v, collisionBitmask cc = some v ∧ v < 2 ^ 16 ∧
      ∀ cc2 : List Bool, cc2.take 16 = cc.take 16 →
        collisionBitmask cc2 = collisionBitmask cc := by
  have hlen : (((cc.take 16).map (fun group => if group then '1' else '0')).reverse).length
      = 16 := by
    simp [List.length_take]
    omega
  have hne : ((cc.take 16).map (fun group => if group then '1' else '0')).reverse ≠ [] :=
    List.length_pos.mp (by rw [hlen]; omega)
  refine ⟨(((cc.take 16).map (fun group => if group then '1' else '0')).reverse).foldl
      (fun a c => 2 * a + (if c = '1' then 1 else 0)) 0, ?_, ?_, ?_⟩
  · unfold collisionBitmask intParseBase2
    rw [if_neg hne]
  · have hb := parseFold_lt (((cc.take 16).map (fun group => if group then '1' else '0')).reverse) 0
    rw [hlen] at hb
    simpa using hb
  · intro cc2 h2
    unfold collisionBitmask
    rw [h2]

/-- Witness for C8 at the all-on 20-layer vector. -/
theorem collisionBitmask_in_range_witness :
    16 ≤ sampleCollections.length ∧
      ∃ v, collisionBitmask sampleCollections = some v ∧ v < 2 ^ 16 ∧
        ∀ cc2 : List Bool, cc2.take 16 = sampleCollections.take 16 →
          collisionBitmask cc2 = collisionBitmask sampleCollections :=
  ⟨by decide, collisionBitmask_in_range sampleCollections (by decide)⟩

/-- C6 (code behaviour at the claim's failing input): on two annotation keys
sharing the head `p`, `deepen_dict` stores a fresh nested dict per key, so
the later key overwrites the earlier one: `p/a`'s entry is lost and only
`{"p": {"b": 2}}` remains, contradicting the claimed reuse of the nested
mapping. -/
theorem deepen_dict_overwrites_shared_head :
    deepen_dict sharedHeadProps = [(['p'], .dict [(['b'], .atom 2)])] := by
  simp [deepen_dict, sharedHeadProps, deepen_dictAux, splitFirst, splitFirstAux, dictSet]

/-- The axis step returns `some` exactly for the axis-requiring joint
types. -/
theorem jointAxisStep_isSome_iff (props : List (Key × PVal)) (jt : PVal) (ax : Option PVal)
    (hx : jointAxisStep props jt = .ok ax) :
    ax.isSome = true ↔ jt ∈ axisJointTypes := by
  unfold jointAxisStep at hx
  by_cases hax : jt ∈ axisJointTypes
  · rw [if_pos hax] at hx
    cases hv2 : dictGet props (kStr "joint/axis") with
    | none => rw [hv2] at hx; simp at hx
    | some a =>
      rw [hv2] at hx
      simp only [] at hx
      simp only [Except.ok.injEq] at hx
      subst hx
      simp [hax]
  · rw [if_neg hax] at hx
    simp only [Except.ok.injEq] at hx
    subst hx
    simp [hax]

/-- C4: whenever `deriveJoint` builds a joint, the joint carries an axis
exactly when its joint type is `revolute`, `prismatic` or `continuous`. -/
theorem deriveJoint_axis_iff (normalize : HMat → HMat) (reserved : List Key) (obj : BObj)
    (j : Joint) (h : deriveJoint normalize reserved obj = .ok (some j)) :
    j.axis.isSome = true ↔ j.joint_type ∈ axisJointTypes := by
  unfold deriveJoint at h
  cases hep : obj.effectiveParent with
  | none => rw [hep] at h; simp at h
  | some parent =>
    rw [hep] at h
    simp only [] at h
    cases hga : groupAuxNS reserved (kStr "link/") (kStr "joint/") [] obj.props with
    | error e => rw [hga] at h; simp at h
    | ok annotations =>
      rw [hga] at h
      simp only [] at h
      by_cases hml :
          (obj.children.filter (fun c => decide (c.phobostype = kStr "motor"))).length ≤ 1
      · rw [if_pos hml] at h
        cases hjt : dictGet obj.props (kStr "joint/type") with
        | none => rw [hjt] at h; simp at h
        | some jt =>
          rw [hjt] at h
          simp only [] at h
          cases haxE : jointAxisStep obj.props jt with
          | error e => rw [haxE] at h; simp at h
          | ok axis =>
            rw [haxE] at h
            simp only [] at h
            cases hmim : jointMimicStep obj.props with
            | error e => rw [hmim] at h; simp at h
            | ok mimic =>
              rw [hmim] at h
              simp only [] at h
              simp only [Except.ok.injEq, Option.some.injEq] at h
              subst h
              exact jointAxisStep_isSome_iff obj.props jt axis haxE
      · rw [if_neg hml] at h
        simp at h

/-- Witness for C4 at a concrete fixed joint. -/
theorem deriveJoint_axis_iff_witness :
    deriveJoint id sampleJointReserved sampleJointObj = .ok (some sampleJoint) ∧
      (sampleJoint.axis.isSome = true ↔ sampleJoint.joint_type ∈ axisJointTypes) :=
  ⟨by rfl,
   deriveJoint_axis_iff id sampleJointReserved sampleJointObj sampleJoint (by rfl)⟩

/-- C9: an object without an effective parent makes `deriveJoint` return
`None` instead of raising. -/
theorem deriveJoint_no_parent (normalize : HMat → HMat) (reserved : List Key) (obj : BObj)
    (h : obj.effectiveParent = none) :
    deriveJoint normalize reserved obj = .ok none := by
  unfold deriveJoint
  rw [h]

/-- Witness for C9 at a concrete parentless object. -/
theorem deriveJoint_no_parent_witness :
    sampleRootObj.effectiveParent = none ∧
      deriveJoint id sampleJointReserved sampleRootObj = .ok none :=
  ⟨by decide, deriveJoint_no_parent id sampleJointReserved sampleRootObj (by decide)⟩

/-- C10 counterexample: an object with neither a `mass` nor an `inertia`
property whose remaining keys collide in the annotation grouping makes
`deriveInertial` raise `TypeError` — no Inertial record is returned, so the
claim's "in both cases a result is still returned rather than an error
raised" is false as a statement about every object. -/
theorem deriveInertial_missing_mass_raises :
    dictGet badInertialObj.props (kStr "mass") = none ∧
      dictGet badInertialObj.props (kStr "inertia") = none ∧
      deriveInertial id badInertialObj = .error .typeError := by
  decide

/-- C10 (amended): when the object's annotation grouping succeeds and its
`inertia` property (if present) is well-formed, `deriveInertial` returns a
record; a missing `mass` yields mass exactly `0.0` and a missing `inertia`
yields an absent inertia field. -/
theorem deriveInertial_defaults (normalize : HMat → HMat) (obj : BObj)
    (hg : (groupAux [kStr "mass", kStr "inertia", kStr "origin"] [] obj.props).isOk = true)
    (hi : ∀ v, dictGet obj.props (kStr "inertia") = some v →
      (parseInertiaProp v).isOk = true) :
    ∃ r, deriveInertial normalize obj = .ok r ∧
      (dictGet obj.props (kStr "mass") = none → r.mass = .num 0) ∧
      (dictGet obj.props (kStr "inertia") = none → r.inertia = none) := by
  cases hv : dictGet obj.props (kStr "inertia") with
  | some v =>
    have hpv := hi v hv
    cases hp : parseInertiaProp v with
    | error e => rw [hp] at hpv; cases hpv
    | ok i =>
      cases hgr : groupAux [kStr "mass", kStr "inertia", kStr "origin"] [] obj.props with
      | error e => rw [hgr] at hg; cases hg
      | ok annotations =>
        refine ⟨⟨(dictGet obj.props (kStr "mass")).getD (.num 0), some i,
          deriveObjectPose normalize obj none, annotations⟩, ?_, ?_, ?_⟩
        · unfold deriveInertial
          rw [hv]
          simp [hp, hgr, Except.map]
        · intro hm
          simp [hm]
        · intro hm
          exact absurd hm (by simp)
  | none =>
    cases hgr : groupAux [kStr "mass", kStr "inertia", kStr "origin"] [] obj.props with
    | error e => rw [hgr] at hg; cases hg
    | ok annotations =>
      refine ⟨⟨(dictGet obj.props (kStr "mass")).getD (.num 0), none,
        deriveObjectPose normalize obj none, annotations⟩, ?_, ?_, ?_⟩
      · unfold deriveInertial
        rw [hv]
        simp [hgr]
      · intro hm
        simp [hm]
      · intro _
        rfl

/-- Witness for C10 (amended) at a concrete object missing both `mass` and
`inertia`. -/
theorem deriveInertial_defaults_witness :
    dictGet plainInertialObj.props (kStr "mass") = none ∧
      dictGet plainInertialObj.props (kStr "inertia") = none ∧
      ∃ r, deriveInertial id plainInertialObj = .ok r ∧
        (dictGet plainInertialObj.props (kStr "mass") = none → r.mass = .num 0) ∧
        (dictGet plainInertialObj.props (kStr "inertia") = none → r.inertia = none) :=
  ⟨by decide, by decide,
   deriveInertial_defaults id plainInertialObj (by decide)
     (by
       intro v hv
       rw [show dictGet plainInertialObj.props (kStr "inertia") = none from by decide] at hv
       cases hv)⟩

/-- Fusing contributions whose masses sum to zero yields the absent
result. -/
theorem fuse_inertia_data_zero_mass (inertials : List ChildObj)
    (h : ((inertials.map (fun c => c.mass)).sum : ℚ) = 0) :
    fuse_inertia_data inertials = none := by
  unfold fuse_inertia_data
  rw [if_pos h]

/-- C3: when the masses of the gathered inertial children sum to zero — in
particular when there are no inertial children — the link inertial is
absent: `linkInertial` (a total function, so no division-by-zero or other
error can occur) returns `none`, and `deriveLink` copies that absence into
the link's inertial field. -/
theorem deriveLink_zero_mass_absent_inertial (obj : BObj)
    (h : (((obj.children.filter (fun c => decide (c.phobostype = kStr "inertial"))).map
      (fun c => c.mass)).sum : ℚ) = 0) :
    linkInertial obj = none ∧
      ∀ reserved objectlist l, deriveLink reserved objectlist obj = .ok l →
        l.inertial = none := by
  have h1 : linkInertial obj = none := by
    unfold linkInertial
    by_cases hlen :
        (obj.children.filter (fun c => decide (c.phobostype = kStr "inertial"))).length > 0
    · rw [if_pos hlen, fuse_inertia_data_zero_mass _ h]
    · rw [if_neg hlen]
  refine ⟨h1, ?_⟩
  intro reserved objectlist l hl
  unfold deriveLink at hl
  cases hga : groupAuxNS reserved (kStr "joint/") (kStr "link/") [] obj.props with
  | error e => rw [hga] at hl; simp at hl
  | ok annotations =>
    rw [hga] at hl
    simp only [] at hl
    simp only [Except.ok.injEq] at hl
    subst hl
    exact h1

/-- Witness for C3 at a link object without children. -/
theorem deriveLink_zero_mass_absent_inertial_witness :
    (((sampleRootObj.children.filter (fun c => decide (c.phobostype = kStr "inertial"))).map
      (fun c => c.mass)).sum : ℚ) = 0 ∧
      linkInertial sampleRootObj = none ∧
      ∀ reserved objectlist l, deriveLink reserved objectlist sampleRootObj = .ok l →
        l.inertial = none :=
  ⟨by decide,
   (deriveLink_zero_mass_absent_inertial sampleRootObj (by decide)).1,
   (deriveLink_zero_mass_absent_inertial sampleRootObj (by decide)).2⟩

/-- Scanner soundness: a successful split reconstructs the input key. -/
theorem splitFirstAux_reconstruct (l : Key) : ∀ acc k1 k2 : Key,
    splitFirstAux acc l = some (k1, k2) → acc.reverse ++ l = k1 ++ '/' :: k2 := by
  induction l with
  | nil => intro acc k1 k2 h; simp [splitFirstAux] at h
  | cons c rest ih =>
    intro acc k1 k2 h
    rw [splitFirstAux] at h
    by_cases hc : c = '/'
    · rw [if_pos hc] at h
      simp only [Option.some.injEq, Prod.mk.injEq] at h
      obtain ⟨h1, h2⟩ := h
      subst h1; subst h2; subst hc
      simp
    · rw [if_neg hc] at h
      have h3 := ih (c :: acc) k1 k2 h
      simpa using h3

/-- A successful `splitFirst` reconstructs the key as
`head ++ "/" ++ remainder`. -/
theorem splitFirst_reconstruct (k k1 k2 : Key) (h : splitFirst k = some (k1, k2)) :
    k = k1 ++ '/' :: k2 := by
  have h2 := splitFirstAux_reconstruct k [] k1 k2 h
  simpa using h2

/-- Two keys with the same head and the same remainder are equal. -/
theorem splitFirst_inj (k k' k1 k2 : Key) (h : splitFirst k = some (k1, k2))
    (h' : splitFirst k' = some (k1, k2)) : k = k' := by
  rw [splitFirst_reconstruct k k1 k2 h, splitFirst_reconstruct k' k1 k2 h']

/-- Lookup after a dict assignment. -/
theorem dictGet_dictSet {α : Type} (d : List (Key × α)) (k : Key) (v : α) (k' : Key) :
    dictGet (dictSet d k v) k' = if k = k' then some v else dictGet d k' := by
  induction d with
  | nil => simp only [dictSet, dictGet]
  | cons kv d ih =>
    obtain ⟨k0, v0⟩ := kv
    by_cases h0 : k0 = k
    · subst h0
      by_cases h2 : k0 = k'
      · subst h2
        simp [dictSet, dictGet]
      · simp [dictSet, dictGet, h2]
    · by_cases h1 : k0 = k'
      · subst h1
        have h2 : ¬ k = k0 := fun hh => h0 hh.symm
        simp [dictSet, dictGet, h0, h2]
      · simp [dictSet, dictGet, h0, h1, ih]

/-- Skipping the excluded keys inline is the same as filtering them away
first: the grouping drops every key in the excluded set. -/
theorem groupAux_filter (excluded : List Key) (items : List (Key × PVal)) :
    ∀ ann, groupAux excluded ann items = groupAux [] ann (survivors excluded items) := by
  induction items with
  | nil => intro ann; simp [groupAux, survivors]
  | cons kv rest ih =>
    intro ann
    obtain ⟨k, v⟩ := kv
    by_cases hk : k ∈ excluded
    · have hserv : survivors excluded ((k, v) :: rest) = survivors excluded rest := by
        simp [survivors, List.filter_cons, hk]
      rw [hserv]
      simp only [groupAux]
      rw [if_pos hk]
      exact ih ann
    · have hserv : survivors excluded ((k, v) :: rest) = (k, v) :: survivors excluded rest := by
        simp [survivors, List.filter_cons, hk]
      rw [hserv]
      simp only [groupAux]
      rw [if_neg hk]
      cases hgs : groupStep ann k v with
      | ok a2 => simp [hgs, ih]
      | error e => simp [hgs]

/-- Processing an appended list processes the parts in order. -/
theorem groupAux_append (xs : List (Key × PVal)) :
    ∀ (ann : List (Key × AnnVal)) (ys : List (Key × PVal)),
    groupAux [] ann (xs ++ ys) =
      (match groupAux [] ann xs with
       | .ok a2 => groupAux [] a2 ys
       | .error e => .error e) := by
  induction xs with
  | nil => intro ann ys; simp [groupAux]
  | cons kv rest ih =>
    intro ann ys
    obtain ⟨k, v⟩ := kv
    simp only [List.cons_append, groupAux]
    cases hgs : groupStep ann k v with
    | ok a2 => simp [hgs, ih]
    | error e => simp [hgs]

/-- Plain slots of a grouping result were either already in the accumulator
or come from separator-free input keys. -/
theorem groupAux_plain_provenance (items : List (Key × PVal)) :
    ∀ ann res k, groupAux [] ann items = .ok res → isPlainSlot res k →
      isPlainSlot ann k ∨ ∃ v, (k, v) ∈ items ∧ splitFirst k = none := by
  induction items with
  | nil =>
    intro ann res k h hp
    simp only [groupAux, Except.ok.injEq] at h
    subst h
    exact Or.inl hp
  | cons kv rest ih =>
    intro ann res k h hp
    obtain ⟨k0, v0⟩ := kv
    simp only [groupAux] at h
    rw [if_neg (by simp)] at h
    cases hgs : groupStep ann k0 v0 with
    | error e => rw [hgs] at h; simp at h
    | ok a2 =>
      rw [hgs] at h
      simp only [] at h
      have h2 := ih a2 res k h hp
      rcases h2 with h2 | ⟨v, hv, hsp⟩
      · unfold groupStep at hgs
        cases hsp0 : splitFirst k0 with
        | none =>
          rw [hsp0] at hgs
          simp only [Except.ok.injEq] at hgs
          subst hgs
          obtain ⟨v2, hv2⟩ := h2
          rw [dictGet_dictSet] at hv2
          by_cases hkk : k0 = k
          · subst hkk
            exact Or.inr ⟨v0, List.mem_cons_self _ _, hsp0⟩
          · rw [if_neg hkk] at hv2
            exact Or.inl ⟨v2, hv2⟩
        | some p =>
          obtain ⟨k1, k2⟩ := p
          rw [hsp0] at hgs
          simp only [] at hgs
          cases hdg : dictGet ann k1 with
          | none =>
            rw [hdg] at hgs
            simp only [Except.ok.injEq] at hgs
            subst hgs
            obtain ⟨v2, hv2⟩ := h2
            rw [dictGet_dictSet] at hv2
            by_cases hkk : k1 = k
            · rw [if_pos hkk] at hv2; simp at hv2
            · rw [if_neg hkk] at hv2
              exact Or.inl ⟨v2, hv2⟩
          | some a =>
            cases a with
            | plain pv => rw [hdg] at hgs; simp at hgs
            | nested m =>
              rw [hdg] at hgs
              simp only [Except.ok.injEq] at hgs
              subst hgs
              obtain ⟨v2, hv2⟩ := h2
              rw [dictGet_dictSet] at hv2
              by_cases hkk : k1 = k
              · rw [if_pos hkk] at hv2; simp at hv2
              · rw [if_neg hkk] at hv2
                exact Or.inl ⟨v2, hv2⟩
      · exact Or.inr ⟨v, List.mem_cons_of_mem _ hv, hsp⟩

/-- Under the no-collision conditions the grouping loop succeeds. -/
theorem groupAux_success (items : List (Key × PVal)) :
    ∀ ann,
    (∀ p ∈ items, ∀ q ∈ items, splitFirst p.1 = none → headKeyOf q.1 ≠ some p.1) →
    (∀ k, isPlainSlot ann k → ∀ q ∈ items, headKeyOf q.1 ≠ some k) →
    ∃ res, groupAux [] ann items = .ok res := by
  induction items with
  | nil => intro ann _ _; exact ⟨ann, by simp [groupAux]⟩
  | cons kv rest ih =>
    intro ann hitems hacc
    obtain ⟨k0, v0⟩ := kv
    have hitems' : ∀ p ∈ rest, ∀ q ∈ rest, splitFirst p.1 = none → headKeyOf q.1 ≠ some p.1 :=
      fun p hp q hq => hitems p (List.mem_cons_of_mem _ hp) q (List.mem_cons_of_mem _ hq)
    cases hsp0 : splitFirst k0 with
    | none =>
      have step : groupStep ann k0 v0 = .ok (dictSet ann k0 (.plain v0)) := by
        unfold groupStep; rw [hsp0]
      have hacc' : ∀ k, isPlainSlot (dictSet ann k0 (.plain v0)) k →
          ∀ q ∈ rest, headKeyOf q.1 ≠ some k := by
        intro k hk q hq
        obtain ⟨v2, hv2⟩ := hk
        rw [dictGet_dictSet] at hv2
        by_cases hkk : k0 = k
        · subst hkk
          exact hitems (k0, v0) (List.mem_cons_self _ _) q (List.mem_cons_of_mem _ hq) hsp0
        · rw [if_neg hkk] at hv2
          exact hacc k ⟨v2, hv2⟩ q (List.mem_cons_of_mem _ hq)
      obtain ⟨res, hres⟩ := ih (dictSet ann k0 (.plain v0)) hitems' hacc'
      refine ⟨res, ?_⟩
      simp only [groupAux]
      rw [if_neg (by simp), step]
      simpa using hres
    | some p =>
      obtain ⟨k1, k2⟩ := p
      have hnotplain : ∀ pv, dictGet ann k1 ≠ some (.plain pv) := by
        intro pv hdg
        exact hacc k1 ⟨pv, hdg⟩ (k0, v0) (List.mem_cons_self _ _) (by simp [headKeyOf, hsp0])
      cases hdg : dictGet ann k1 with
      | none =>
        have step : groupStep ann k0 v0 = .ok (dictSet ann k1 (.nested [(k2, v0)])) := by
          unfold groupStep; rw [hsp0]; simp only []; simp [hdg]
        have hacc' : ∀ k, isPlainSlot (dictSet ann k1 (.nested [(k2, v0)])) k →
            ∀ q ∈ rest, headKeyOf q.1 ≠ some k := by
          intro k hk q hq
          obtain ⟨v2, hv2⟩ := hk
          rw [dictGet_dictSet] at hv2
          by_cases hkk : k1 = k
          · rw [if_pos hkk] at hv2; simp at hv2
          · rw [if_neg hkk] at hv2
            exact hacc k ⟨v2, hv2⟩ q (List.mem_cons_of_mem _ hq)
        obtain ⟨res, hres⟩ := ih (dictSet ann k1 (.nested [(k2, v0)])) hitems' hacc'
        refine ⟨res, ?_⟩
        simp only [groupAux]
        rw [if_neg (by simp), step]
        simpa using hres
      | some a =>
        cases a with
        | plain pv => exact absurd hdg (hnotplain pv)
        | nested m =>
          have step : groupStep ann k0 v0 = .ok (dictSet ann k1 (.nested (dictSet m k2 v0))) := by
            unfold groupStep; rw [hsp0]; simp only []; simp [hdg]
          have hacc' : ∀ k, isPlainSlot (dictSet ann k1 (.nested (dictSet m k2 v0))) k →
              ∀ q ∈ rest, headKeyOf q.1 ≠ some k := by
            intro k hk q hq
            obtain ⟨v2, hv2⟩ := hk
            rw [dictGet_dictSet] at hv2
            by_cases hkk : k1 = k
            · rw [if_pos hkk] at hv2; simp at hv2
            · rw [if_neg hkk] at hv2
              exact hacc k ⟨v2, hv2⟩ q (List.mem_cons_of_mem _ hq)
          obtain ⟨res, hres⟩ := ih (dictSet ann k1 (.nested (dictSet m k2 v0))) hitems' hacc'
          refine ⟨res, ?_⟩
          simp only [groupAux]
          rw [if_neg (by simp), step]
          simpa using hres

/-- A plain top-level entry survives the processing of keys that neither
reuse its key nor target it as a nested head. -/
theorem groupAux_plain_preserved (items : List (Key × PVal)) :
    ∀ ann k v res, dictGet ann k = some (.plain v) →
    (∀ q ∈ items, q.1 ≠ k) →
    (∀ q ∈ items, headKeyOf q.1 ≠ some k) →
    groupAux [] ann items = .ok res →
    dictGet res k = some (.plain v) := by
  induction items with
  | nil =>
    intro ann k v res hv _ _ h
    simp only [groupAux, Except.ok.injEq] at h
    subst h
    exact hv
  | cons kv rest ih =>
    intro ann k v res hv h1 h2 h
    obtain ⟨k0, v0⟩ := kv
    simp only [groupAux] at h
    rw [if_neg (by simp)] at h
    cases hgs : groupStep ann k0 v0 with
    | error e => rw [hgs] at h; simp at h
    | ok a2 =>
      rw [hgs] at h
      simp only [] at h
      have hv2 : dictGet a2 k = some (.plain v) := by
        unfold groupStep at hgs
        cases hsp0 : splitFirst k0 with
        | none =>
          rw [hsp0] at hgs
          simp only [Except.ok.injEq] at hgs
          subst hgs
          rw [dictGet_dictSet, if_neg (h1 (k0, v0) (List.mem_cons_self _ _))]
          exact hv
        | some p =>
          obtain ⟨k1, k2⟩ := p
          rw [hsp0] at hgs
          simp only [] at hgs
          have hk1 : ¬ k1 = k := by
            intro hh
            exact h2 (k0, v0) (List.mem_cons_self _ _) (by simp [headKeyOf, hsp0, hh])
          cases hdg : dictGet ann k1 with
          | none =>
            rw [hdg] at hgs
            simp only [Except.ok.injEq] at hgs
            subst hgs
            rw [dictGet_dictSet, if_neg hk1]
            exact hv
          | some a =>
            cases a with
            | plain pv => rw [hdg] at hgs; simp at hgs
            | nested m =>
              rw [hdg] at hgs
              simp only [Except.ok.injEq] at hgs
              subst hgs
              rw [dictGet_dictSet, if_neg hk1]
              exact hv
      exact ih a2 k v res hv2
        (fun q hq => h1 q (List.mem_cons_of_mem _ hq))
        (fun q hq => h2 q (List.mem_cons_of_mem _ hq)) h

/-- A nested entry survives the processing of keys whose plain writes avoid
its head slot and whose nested writes under the same head avoid its
remainder. -/
theorem groupAux_nested_preserved (items : List (Key × PVal)) :
    ∀ ann k1 k2 v m res,
    dictGet ann k1 = some (.nested m) → dictGet m k2 = some v →
    (∀ q ∈ items, splitFirst q.1 = none → q.1 ≠ k1) →
    (∀ q ∈ items, ∀ ka kb, splitFirst q.1 = some (ka, kb) → ka = k1 → kb ≠ k2) →
    groupAux [] ann items = .ok res →
    ∃ m2, dictGet res k1 = some (.nested m2) ∧ dictGet m2 k2 = some v := by
  induction items with
  | nil =>
    intro ann k1 k2 v m res hm hv _ _ h
    simp only [groupAux, Except.ok.injEq] at h
    subst h
    exact ⟨m, hm, hv⟩
  | cons kv rest ih =>
    intro ann k1 k2 v m res hm hv h1 h2 h
    obtain ⟨k0, v0⟩ := kv
    simp only [groupAux] at h
    rw [if_neg (by simp)] at h
    cases hgs : groupStep ann k0 v0 with
    | error e => rw [hgs] at h; simp at h
    | ok a2 =>
      rw [hgs] at h
      simp only [] at h
      have h1' : ∀ q ∈ rest, splitFirst q.1 = none → q.1 ≠ k1 :=
        fun q hq => h1 q (List.mem_cons_of_mem _ hq)
      have h2' : ∀ q ∈ rest, ∀ ka kb, splitFirst q.1 = some (ka, kb) → ka = k1 → kb ≠ k2 :=
        fun q hq => h2 q (List.mem_cons_of_mem _ hq)
      unfold groupStep at hgs
      cases hsp0 : splitFirst k0 with
      | none =>
        rw [hsp0] at hgs
        simp only [Except.ok.injEq] at hgs
        subst hgs
        have hne : ¬ k0 = k1 := h1 (k0, v0) (List.mem_cons_self _ _) hsp0
        have hm2 : dictGet (dictSet ann k0 (.plain v0)) k1 = some (.nested m) := by
          rw [dictGet_dictSet, if_neg hne]
          exact hm
        exact ih _ k1 k2 v m res hm2 hv h1' h2' h
      | some p =>
        obtain ⟨ka, kb⟩ := p
        rw [hsp0] at hgs
        simp only [] at hgs
        by_cases hka : ka = k1
        · rw [hka] at hgs hsp0
          rw [hm] at hgs
          simp only [Except.ok.injEq] at hgs
          subst hgs
          have hkb : kb ≠ k2 := h2 (k0, v0) (List.mem_cons_self _ _) k1 kb hsp0 rfl
          have hm2 : dictGet (dictSet ann k1 (.nested (dictSet m kb v0))) k1
              = some (.nested (dictSet m kb v0)) := by
            rw [dictGet_dictSet, if_pos rfl]
          have hv2 : dictGet (dictSet m kb v0) k2 = some v := by
            rw [dictGet_dictSet, if_neg hkb]
            exact hv
          exact ih _ k1 k2 v _ res hm2 hv2 h1' h2' h
        · cases hdg : dictGet ann ka with
          | none =>
            rw [hdg] at hgs
            simp only [Except.ok.injEq] at hgs
            subst hgs
            have hm2 : dictGet (dictSet ann ka (.nested [(kb, v0)])) k1 = some (.nested m) := by
              rw [dictGet_dictSet, if_neg hka]
              exact hm
            exact ih _ k1 k2 v m res hm2 hv h1' h2' h
          | some a =>
            cases a with
            | plain pv => rw [hdg] at hgs; simp at hgs
            | nested m0 =>
              rw [hdg] at hgs
              simp only [Except.ok.injEq] at hgs
              subst hgs
              have hm2 : dictGet (dictSet ann ka (.nested (dictSet m0 kb v0))) k1
                  = some (.nested m) := by
                rw [dictGet_dictSet, if_neg hka]
                exact hm
              exact ih _ k1 k2 v m res hm2 hv h1' h2' h

/-- C5 counterexample: on the bag `{"a": 1, "a/b": 2}` with nothing
excluded the grouping raises `TypeError` (the slot `a` already holds a
plain value when `a/b` is processed), so the claimed storage of every
surviving key fails — there is no result mapping at all. -/
theorem groupAnnotations_collision_counterexample :
    ¬ ∃ res, groupAnnotations [] collidingProps = .ok res ∧
      ∀ k v, (k, v) ∈ survivors [] collidingProps →
        ((splitFirst k = none → dictGet res k = some (.plain v)) ∧
         ∀ k1 k2, splitFirst k = some (k1, k2) →
           ∃ m, dictGet res k1 = some (.nested m) ∧ dictGet m k2 = some v) := by
  rintro ⟨res, hres, -⟩
  rw [show groupAnnotations [] collidingProps = .error .typeError from by decide] at hres
  cases hres

/-- C5 (amended): with pairwise-distinct keys and no plain-key/nested-head
collision among the surviving keys, the one-level grouping drops exactly
the excluded keys, succeeds, stores every surviving separator-free key
unchanged at top level, and stores every surviving separator key under its
remainder inside the nested dict of its head prefix. -/
theorem groupAnnotations_grouping (excluded : List Key) (items : List (Key × PVal))
    (hnd : KeysNodup items) (hnc : NoCollision (survivors excluded items)) :
    groupAnnotations excluded items = groupAnnotations [] (survivors excluded items) ∧
      ∃ res, groupAnnotations excluded items = .ok res ∧
        ∀ k v, (k, v) ∈ survivors excluded items →
          ((splitFirst k = none → dictGet res k = some (.plain v)) ∧
           ∀ k1 k2, splitFirst k = some (k1, k2) →
             ∃ m, dictGet res k1 = some (.nested m) ∧ dictGet m k2 = some v) := by
  have hdrop : groupAnnotations excluded items
      = groupAnnotations [] (survivors excluded items) := by
    unfold groupAnnotations
    exact groupAux_filter excluded items []
  have hndS : ((survivors excluded items).map (fun kv => kv.1)).Nodup :=
    List.Nodup.sublist (List.Sublist.map _ (List.filter_sublist _)) hnd
  obtain ⟨res, hres⟩ := groupAux_success (survivors excluded items) []
    (fun p hp q hq hsp => hnc p hp q hq hsp)
    (fun k hk => by obtain ⟨v, hv⟩ := hk; simp [dictGet] at hv)
  refine ⟨hdrop, res, ?_, ?_⟩
  · rw [hdrop]
    unfold groupAnnotations
    exact hres
  · intro k v hkv
    obtain ⟨pre, post, hS⟩ := List.append_of_mem hkv
    have hkeys := hndS
    rw [hS, List.map_append, List.map_cons] at hkeys
    have hnotpre : ¬ k ∈ pre.map (fun kv => kv.1) := by
      rcases List.nodup_append.mp hkeys with ⟨-, -, hdisj⟩
      intro hmem
      exact hdisj hmem (List.mem_cons_self _ _)
    have hnotpost : ¬ k ∈ post.map (fun kv => kv.1) := by
      rcases List.nodup_append.mp hkeys with ⟨-, hcons, -⟩
      exact (List.nodup_cons.mp hcons).1
    have hres' := hres
    rw [hS, groupAux_append] at hres'
    cases hpre : groupAux [] [] pre with
    | error e => rw [hpre] at hres'; simp at hres'
    | ok a0 =>
      rw [hpre] at hres'
      simp only [] at hres'
      simp only [groupAux] at hres'
      rw [if_neg (by simp)] at hres'
      constructor
      · intro hsp
        have step : groupStep a0 k v = .ok (dictSet a0 k (.plain v)) := by
          unfold groupStep; rw [hsp]
        rw [step] at hres'
        simp only [] at hres'
        have hself : dictGet (dictSet a0 k (.plain v)) k = some (.plain v) := by
          rw [dictGet_dictSet, if_pos rfl]
        have hq1 : ∀ q ∈ post, q.1 ≠ k := by
          intro q hq hqeq
          exact hnotpost (hqeq ▸ List.mem_map_of_mem _ hq)
        have hq2 : ∀ q ∈ post, headKeyOf q.1 ≠ some k := by
          intro q hq
          exact hnc (k, v) hkv q
            (by rw [hS]; exact List.mem_append.mpr (Or.inr (List.mem_cons_of_mem _ hq))) hsp
        exact groupAux_plain_preserved post (dictSet a0 k (.plain v)) k v res hself hq1 hq2 hres'
      · intro k1 k2 hsp
        have hnotplain : ∀ pv, dictGet a0 k1 ≠ some (.plain pv) := by
          intro pv hdg
          have hprov := groupAux_plain_provenance pre [] a0 k1 hpre ⟨pv, hdg⟩
          rcases hprov with ⟨v2, hv2⟩ | ⟨v2, hv2, hsp2⟩
          · simp [dictGet] at hv2
          · exact hnc (k1, v2)
              (by rw [hS]; exact List.mem_append.mpr (Or.inl hv2)) (k, v) hkv hsp2
              (by simp [headKeyOf, hsp])
        have hH1 : ∀ q ∈ post, splitFirst q.1 = none → q.1 ≠ k1 := by
          intro q hq hq0 hqeq
          exact hnc q
            (by rw [hS]; exact List.mem_append.mpr (Or.inr (List.mem_cons_of_mem _ hq)))
            (k, v) hkv hq0 (by simp [headKeyOf, hsp, hqeq])
        have hH2 : ∀ q ∈ post, ∀ ka kb, splitFirst q.1 = some (ka, kb) → ka = k1 → kb ≠ k2 := by
          intro q hq ka kb hq0 hka hkb
          subst hka
          subst hkb
          have hqk : q.1 = k := splitFirst_inj q.1 k ka kb hq0 hsp
          exact hnotpost (hqk ▸ List.mem_map_of_mem _ hq)
        cases hdg : dictGet a0 k1 with
        | none =>
          have step : groupStep a0 k v = .ok (dictSet a0 k1 (.nested [(k2, v)])) := by
            unfold groupStep; rw [hsp]; simp only []; simp [hdg]
          rw [step] at hres'
          simp only [] at hres'
          have hm1 : dictGet (dictSet a0 k1 (.nested [(k2, v)])) k1
              = some (.nested [(k2, v)]) := by
            rw [dictGet_dictSet, if_pos rfl]
          have hv1 : dictGet ([(k2, v)] : List (Key × PVal)) k2 = some v := by
            simp [dictGet]
          exact groupAux_nested_preserved post _ k1 k2 v _ res hm1 hv1 hH1 hH2 hres'
        | some a =>
          cases a with
          | plain pv => exact absurd hdg (hnotplain pv)
          | nested m =>
            have step : groupStep a0 k v = .ok (dictSet a0 k1 (.nested (dictSet m k2 v))) := by
              unfold groupStep; rw [hsp]; simp only []; simp [hdg]
            rw [step] at hres'
            simp only [] at hres'
            have hm1 : dictGet (dictSet a0 k1 (.nested (dictSet m k2 v))) k1
                = some (.nested (dictSet m k2 v)) := by
              rw [dictGet_dictSet, if_pos rfl]
            have hv1 : dictGet (dictSet m k2 v) k2 = some v := by
              rw [dictGet_dictSet, if_pos rfl]
            exact groupAux_nested_preserved post _ k1 k2 v _ res hm1 hv1 hH1 hH2 hres'

/-- Witness for C5 (amended) at a concrete bag with an excluded key, a
plain key, and two keys sharing the head `p`. -/
theorem groupAnnotations_grouping_witness :
    KeysNodup items1 ∧ NoCollision (survivors ex1 items1) ∧
      (groupAnnotations ex1 items1 = groupAnnotations [] (survivors ex1 items1) ∧
        ∃ res, groupAnnotations ex1 items1 = .ok res ∧
          ∀ k v, (k, v) ∈ survivors ex1 items1 →
            ((splitFirst k = none → dictGet res k = some (.plain v)) ∧
             ∀ k1 k2, splitFirst k = some (k1, k2) →
               ∃ m, dictGet res k1 = some (.nested m) ∧ dictGet m k2 = some v)) :=
  ⟨by decide, by decide, groupAnnotations_grouping ex1 items1 (by decide) (by decide)⟩

end Phobos
